import Mathlib

/-!
Shallow embedding of the wordule guess-ranking and constraint-filtering
engine (src/main.rs), together with proofs about its scoring function,
feedback parsing and candidate filtering.

Modelling conventions:
* Rust `&str` words become `List Char`.
* The `u32` bitmap of `LetterSet` becomes a `Nat`; only bits `0..25` are
  ever set (letter indices are below 26), so no wrap-around can occur and
  `Nat` bit operations agree with the `u32` ones.
* The `[usize; 26]` array of `LetterCount` becomes a function `Nat → Nat`;
  it is only ever read and written at indices below 26.
* `isize` becomes `Int` (Rust `/` truncates toward zero, which agrees with
  `Int`'s `/` on the non-negative operands that occur here).
* `f32` scores are modelled as exact rationals `ℚ`.  This is faithful for
  the finite arithmetic the claims compare against 0 and 1, but `ℚ`
  division by zero yields 0 while IEEE f32 division by zero yields
  NaN or ±∞; the `F32Val`/`f32_div` model below captures that case
  exactly, and `letter_score_f32` is the division-faithful reading of
  `Scoring::letter_score`.
-/

namespace Wordule

/-- A word: sequence of characters (`&str` in the Rust code). -/
abbrev Word := List Char

/-- `to_letter_index`: `letter.is_ascii_lowercase().then(|| letter - b'a')`.
`'a'` has code 97 and `'z'` 122. -/
def to_letter_index (letter : Char) : Option Nat :=
  if 97 ≤ letter.toNat ∧ letter.toNat ≤ 122 then some (letter.toNat - 97) else none

/-- The alphabet iterator `letters() = 'a'..='z'`. -/
def lettersList : List Char :=
  ['a', 'b', 'c', 'd', 'e', 'f', 'g', 'h', 'i', 'j', 'k', 'l', 'm',
   'n', 'o', 'p', 'q', 'r', 's', 't', 'u', 'v', 'w', 'x', 'y', 'z']

/-- `struct LetterSet { set: u32 }` — a 26-bit membership bitmap. -/
structure LetterSet where
  set : Nat
  deriving DecidableEq

namespace LetterSet

/-- `LetterSet::default()`: the empty bitmap. -/
def default : LetterSet := ⟨0⟩

/-- `insert`: `self.set |= 1 << index` when the character is a lowercase
letter, no-op otherwise. -/
def insert (s : LetterSet) (letter : Char) : LetterSet :=
  match to_letter_index letter with
  | some index => ⟨s.set ||| (1 <<< index)⟩
  | none => s

/-- `contains`: `(self.set & (1 << index)) != 0`, false for characters
outside the alphabet. -/
def contains (s : LetterSet) (letter : Char) : Bool :=
  match to_letter_index letter with
  | some index => s.set &&& (1 <<< index) != 0
  | none => false

/-- `LetterSet::from_word`: insert every character of the word. -/
def from_word (word : Word) : LetterSet :=
  word.foldl insert default

end LetterSet

/-- `struct LetterCount { map: [usize; 26] }`. -/
structure LetterCount where
  map : Nat → Nat

namespace LetterCount

/-- `LetterCount::default()`: all counters zero. -/
def default : LetterCount := ⟨fun _ => 0⟩

/-- `increment`: `self.map[index] += 1` for alphabet letters, no-op otherwise. -/
def increment (c : LetterCount) (letter : Char) : LetterCount :=
  match to_letter_index letter with
  | some index => ⟨Function.update c.map index (c.map index + 1)⟩
  | none => c

/-- `get`: the counter for an alphabet letter, 0 otherwise. -/
def get (c : LetterCount) (letter : Char) : Nat :=
  match to_letter_index letter with
  | some index => c.map index
  | none => 0

end LetterCount

/-- `struct Scoring { half: isize, count: LetterCount }`. -/
structure Scoring where
  half : Int
  count : LetterCount

namespace Scoring

/-- `Scoring::new`: `half = words.len() / 2`; for each word, bump the
counter of every alphabet letter contained in the word's letter set. -/
def new (words : List Word) : Scoring :=
  let count := words.foldl
    (fun count word =>
      let word_set := LetterSet.from_word word
      lettersList.foldl
        (fun count ch => if word_set.contains ch then count.increment ch else count)
        count)
    LetterCount.default
  { half := (words.length : Int) / 2, count := count }

/-- `Scoring::max_score`: returns `half`. -/
def max_score (s : Scoring) : Int :=
  s.half

/-- The numerator of `letter_score`:
`half - isize::abs(count.get(letter) as isize - half)`. -/
def abs_score (s : Scoring) (letter : Char) : Int :=
  s.half - |(s.count.get letter : Int) - s.half|

/-- `Scoring::letter_score`: `(abs_score as f32) / (half as f32)`, modelled
with exact rational division.  Note that `ℚ` yields 0 for a zero
denominator whereas the f32 code yields NaN or −∞; see `letter_score_f32`
for the division-faithful model of that case. -/
def letter_score (s : Scoring) (letter : Char) : ℚ :=
  (s.abs_score letter : ℚ) / (s.half : ℚ)

/-- The value of an f32 division whose operands are exact: either a real
quotient or one of the IEEE-754 exceptional results. -/
inductive F32Val where
  | nan : F32Val
  | negInf : F32Val
  | posInf : F32Val
  | val : ℚ → F32Val
  deriving DecidableEq

/-- IEEE-754 division for exact operands: `0/0` is NaN, `a/0` for `a ≠ 0`
is an infinity carrying the sign of `a`, otherwise the exact quotient
(rounding of representable small quotients is immaterial to the claims,
which only compare against 0). -/
def f32_div (a b : ℚ) : F32Val :=
  if b = 0 then (if a = 0 then F32Val.nan else if a < 0 then F32Val.negInf else F32Val.posInf)
  else F32Val.val (a / b)

/-- `Scoring::letter_score` with the f32 division-by-zero behaviour made
explicit. -/
def letter_score_f32 (s : Scoring) (letter : Char) : F32Val :=
  f32_div (s.abs_score letter : ℚ) (s.half : ℚ)

/-- `Scoring::word_score`: fold over the alphabet, adding for each letter
contained in the word's letter set the adjusted letter score given by the
`match (early, present_letters.contains(ch))` table. -/
def word_score (s : Scoring) (word : Word) (present_letters : LetterSet) (early : Bool) : ℚ :=
  let set := LetterSet.from_word word
  lettersList.foldl
    (fun total ch =>
      if set.contains ch then
        let score := s.letter_score ch
        let adjust :=
          match early, present_letters.contains ch with
          | true, true => 0
          | true, false => score
          | false, true => score * 2
          | false, false => score
        total + adjust
      else total)
    0

end Scoring

/-- The session constraint state (the five `hint` locals of `main`):
`fixed_letters`, `fixed_anywhere`, `forbidden_position`,
`forbidden_everywhere`, `present_everywhere`. -/
structure Constraints where
  fixed_letters : List (Option Char)
  fixed_anywhere : LetterSet
  forbidden_position : List LetterSet
  forbidden_everywhere : LetterSet
  present_everywhere : LetterSet
  deriving DecidableEq

namespace Constraints

/-- The initial constraint state: `vec![None; length]`,
`vec![LetterSet::default(); length]`, and empty letter sets. -/
def init (length : Nat) : Constraints :=
  { fixed_letters := List.replicate length none
    fixed_anywhere := LetterSet.default
    forbidden_position := List.replicate length LetterSet.default
    forbidden_everywhere := LetterSet.default
    present_everywhere := LetterSet.default }

end Constraints

/-- The inner loop of the grey (`'x'`) branch when the picked letter was
already used for a position fix: for every position whose fixed letter
differs from the picked letter, insert the picked letter into that
position's forbidden set.  The Rust loop runs over `0..length` indexing
both vectors, which have equal length; `zipWith` expresses the same
per-index traversal. -/
def grey_update (fixed_letters : List (Option Char)) (forbidden_position : List LetterSet)
    (pick : Char) : List LetterSet :=
  List.zipWith
    (fun fix s =>
      match fix with
      | some f => if f ≠ pick then s.insert pick else s
      | none => s)
    fixed_letters forbidden_position

/-- One iteration of the response-parsing loop: the
`match res { 'x' => …, '?' => …, 'o' => …, _ => … }` transition applied at
position `i` for picked letter `pick` and response character `res` (the
`_` arm only prints a diagnostic and leaves the constraints unchanged). -/
def parse_step (c : Constraints) (i : Nat) (pick res : Char) : Constraints :=
  match res with
  | 'x' =>
    if c.fixed_anywhere.contains pick then
      { c with forbidden_position := grey_update c.fixed_letters c.forbidden_position pick }
    else
      { c with forbidden_everywhere := c.forbidden_everywhere.insert pick }
  | '?' =>
    { c with
      forbidden_position :=
        c.forbidden_position.set i ((c.forbidden_position.getD i LetterSet.default).insert pick)
      present_everywhere := c.present_everywhere.insert pick }
  | 'o' =>
    { c with
      fixed_letters := c.fixed_letters.set i (some pick)
      fixed_anywhere := c.fixed_anywhere.insert pick
      present_everywhere := c.present_everywhere.insert pick }
  | _ => c

/-- Processing one whole response line:
`for (i, (res, pick)) in res.chars().zip(picked.chars()).enumerate()`. -/
def apply_response (c : Constraints) (picked res : Word) : Constraints :=
  ((res.zip picked).enum).foldl (fun c x => parse_step c x.1 x.2.2 x.2.1) c

/-- The body of the filter closure, iterating `(i, ch)` over
`word.chars().enumerate()` and rejecting on a globally forbidden letter, a
mismatched fixed letter, or a positionally forbidden letter.  The Rust
code indexes `fixed_letters[i]` and `forbidden_position[i]` directly
(words always have the configured length in the program); `getD` reads the
same entries for in-range indices. -/
def word_ok_aux (c : Constraints) : Nat → List Char → Bool
  | _, [] => true
  | i, ch :: rest =>
    !(c.forbidden_everywhere.contains ch) &&
    (match c.fixed_letters.getD i none with
     | some fixed => fixed == ch
     | none => true) &&
    !((c.forbidden_position.getD i LetterSet.default).contains ch) &&
    word_ok_aux c (i + 1) rest

/-- The filter closure applied to one word starting at position 0. -/
def word_ok (c : Constraints) (word : Word) : Bool :=
  word_ok_aux c 0 word

/-- The candidate filter:
`words.into_iter().filter(|word| …).collect()`. -/
def filter_words (words : List Word) (c : Constraints) : List Word :=
  words.filter (word_ok c)

/-- The sort comparator of the guess loop:
`ls.partial_cmp(&rs).unwrap_or(Ordering::Equal).reverse()` where the
scores are total in the model, so `unwrap_or` never fires. -/
def word_cmp (score : Scoring) (present : LetterSet) (early : Bool)
    (left right : Word) : Ordering :=
  let ls := score.word_score left present early
  let rs := score.word_score right present early
  (if ls < rs then Ordering.lt else if rs < ls then Ordering.gt else Ordering.eq).swap

/-- Rust's stable `slice::sort_by` modelled as a stable merge sort: the
result is ascending for the comparator, i.e. sorted for
`le l r ↔ cmp(l, r) ≠ Greater`. -/
def sort_by_cmp (words : List Word) (cmp : Word → Word → Ordering) : List Word :=
  words.mergeSort (fun l r => cmp l r != Ordering.gt)

/-- The late guess list of one round: build the scorer over the current
candidates, sort the candidates with the comparator (which the code calls
with `early = true`), and keep the whole list when it is shorter than
`guesses`, else its first `guesses` entries. -/
def late_guesses (words : List Word) (present : LetterSet) (guesses : Nat) : List Word :=
  let score := Scoring.new words
  let sorted := sort_by_cmp words (word_cmp score present true)
  if sorted.length < guesses then sorted else sorted.take guesses

/-- Modelled from the spec (§4.7 and claim C2): the late list as the
specification describes it — the current candidates stably sorted in
descending order of the late-game score `word_score(w, present, false)`,
truncated to the first `guesses` entries. -/
def spec_late_list (words : List Word) (present : LetterSet) (guesses : Nat) : List Word :=
  let score := Scoring.new words
  (words.mergeSort
    (fun l r => decide (score.word_score r present false ≤ score.word_score l present false))).take
    guesses

/-! ### Basic facts about letter indices, letter sets and letter counts -/

theorem char_toNat_inj (a b : Char) (h : a.toNat = b.toNat) : a = b :=
  Char.eq_of_val_eq (UInt32.ext h)

theorem to_letter_index_lt {letter : Char} {i : Nat}
    (h : to_letter_index letter = some i) : i < 26 := by
  unfold to_letter_index at h
  split at h
  · rename_i hc
    cases h
    omega
  · cases h

theorem to_letter_index_inj {a b : Char} {i : Nat}
    (ha : to_letter_index a = some i) (hb : to_letter_index b = some i) : a = b := by
  unfold to_letter_index at ha hb
  split at ha
  · split at hb
    · rename_i h1 h2
      rw [Option.some_inj] at ha hb
      exact char_toNat_inj a b (by omega)
    · cases hb
  · cases ha

theorem mem_lettersList {l : Char} (h : to_letter_index l ≠ none) : l ∈ lettersList := by
  have hc : 97 ≤ l.toNat ∧ l.toNat ≤ 122 := by
    by_contra hc
    exact h (by simp [to_letter_index, hc])
  obtain ⟨h1, h2⟩ := hc
  have hl : l = Char.ofNat l.toNat := (Char.ofNat_toNat l).symm
  rw [hl]
  set n := l.toNat
  interval_cases n <;> decide

namespace LetterSet

theorem contains_default (l : Char) : default.contains l = false := by
  unfold contains default
  cases h : to_letter_index l
  · rfl
  · simp [Nat.zero_and]

theorem contains_index_ne_none {s : LetterSet} {l : Char}
    (h : s.contains l = true) : to_letter_index l ≠ none := by
  intro hn
  rw [contains, hn] at h
  cases h

/-- Bit-level membership: `(set & (1 << j)) != 0` is `testBit`. -/
theorem and_shift_ne_zero (x j : Nat) : (x &&& (1 <<< j) != 0) = x.testBit j := by
  rw [Nat.one_shiftLeft, Nat.and_two_pow]
  cases h : x.testBit j
  · simp
  · have : 0 < 2 ^ j := Nat.pow_pos (by omega)
    simp [Nat.ne_of_gt this]

theorem contains_eq_testBit (s : LetterSet) {l : Char} {j : Nat}
    (h : to_letter_index l = some j) : s.contains l = s.set.testBit j := by
  unfold contains
  rw [h]
  show (s.set &&& (1 <<< j) != 0) = s.set.testBit j
  rw [and_shift_ne_zero]

theorem contains_insert (s : LetterSet) (c l : Char) :
    (s.insert c).contains l = true ↔
      (s.contains l = true ∨ (l = c ∧ to_letter_index c ≠ none)) := by
  cases hc : to_letter_index c with
  | none =>
    unfold insert
    rw [hc]
    simp [hc]
  | some i =>
    cases hl : to_letter_index l with
    | none =>
      have hcon : ∀ t : LetterSet, t.contains l = false := by
        intro t
        unfold contains
        rw [hl]
      rw [hcon, hcon]
      constructor
      · intro h
        cases h
      · rintro (h | ⟨rfl, -⟩)
        · cases h
        · rw [hl] at hc
          cases hc
    | some j =>
      have hins : s.insert c = ⟨s.set ||| (1 <<< i)⟩ := by
        unfold insert
        rw [hc]
      rw [hins, contains_eq_testBit _ hl, contains_eq_testBit _ hl]
      show (s.set ||| (1 <<< i)).testBit j = true ↔ _
      rw [Nat.one_shiftLeft, Nat.testBit_or, Nat.testBit_two_pow]
      simp only [Bool.or_eq_true, decide_eq_true_eq]
      constructor
      · rintro (h | rfl)
        · exact Or.inl h
        · exact Or.inr ⟨to_letter_index_inj hl hc, by simp [hc]⟩
      · rintro (h | ⟨rfl, -⟩)
        · exact Or.inl h
        · rw [hl] at hc
          rw [Option.some_inj] at hc
          exact Or.inr hc.symm

end LetterSet

namespace LetterCount

theorem get_default (l : Char) : default.get l = 0 := by
  unfold get default
  cases to_letter_index l <;> rfl

theorem get_increment (c : LetterCount) (ch l : Char) :
    (c.increment ch).get l =
      if l = ch ∧ to_letter_index ch ≠ none then c.get l + 1 else c.get l := by
  unfold increment get
  cases hc : to_letter_index ch with
  | none => simp [hc]
  | some i =>
    cases hl : to_letter_index l with
    | none =>
      have hne : l ≠ ch := by
        rintro rfl
        rw [hl] at hc
        cases hc
      simp [hc, hl, hne]
    | some j =>
      by_cases hji : j = i
      · subst hji
        have heq : l = ch := to_letter_index_inj hl hc
        simp [heq, hc, hl, Function.update_apply]
      · have hne : l ≠ ch := by
          rintro rfl
          rw [hl] at hc
          rw [Option.some_inj] at hc
          exact hji hc
        simp [hc, hl, hne, Function.update_apply, hji]

end LetterCount

/-! ### The derived count of `Scoring::new` -/

/-- Folding the per-word counting loop over a duplicate-free letter list
adds exactly one to the bucket of a letter contained in the word set. -/
theorem count_fold_get (L : List Char) (hL : L.Nodup) (ws : LetterSet)
    (c : LetterCount) (l : Char) :
    (L.foldl (fun c ch => if ws.contains ch then c.increment ch else c) c).get l
      = c.get l + (if l ∈ L ∧ ws.contains l = true then 1 else 0) := by
  induction L generalizing c with
  | nil => simp
  | cons ch L ih =>
    rw [List.foldl_cons, ih hL.of_cons]
    by_cases hlch : l = ch
    · subst hlch
      have hnotmem : l ∉ L := (List.nodup_cons.mp hL).1
      cases hws : ws.contains l
      · simp [hws, hnotmem]
      · have : to_letter_index l ≠ none := LetterSet.contains_index_ne_none hws
        simp [hws, hnotmem, LetterCount.get_increment, this]
    · have hmem : l ∈ ch :: L ↔ l ∈ L := by simp [hlch]
      cases hws : ws.contains ch
      · simp [hws, hmem]
      · simp [hws, hmem, LetterCount.get_increment, hlch]

theorem lettersList_nodup : lettersList.Nodup := by decide

/-- `Scoring::new` counts, for each letter, the number of words whose
letter set contains it (each word contributes at most once per letter). -/
theorem scoring_count_get (words : List Word) (l : Char) :
    (Scoring.new words).count.get l
      = (words.filter (fun w => (LetterSet.from_word w).contains l)).length := by
  suffices h : ∀ c : LetterCount,
      (words.foldl
        (fun count word =>
          lettersList.foldl
            (fun count ch => if (LetterSet.from_word word).contains ch then count.increment ch else count)
            count)
        c).get l
      = c.get l + (words.filter (fun w => (LetterSet.from_word w).contains l)).length by
    rw [Scoring.new]
    show (words.foldl _ LetterCount.default).get l = _
    rw [h, LetterCount.get_default, Nat.zero_add]
  induction words with
  | nil => simp
  | cons w words ih =>
    intro c
    rw [List.foldl_cons, ih, count_fold_get lettersList lettersList_nodup]
    cases hws : (LetterSet.from_word w).contains l
    · simp [List.filter_cons, hws]
    · have hmem : l ∈ lettersList := mem_lettersList (LetterSet.contains_index_ne_none hws)
      simp [List.filter_cons, hws, hmem]
      omega

/-- The count of a letter never exceeds the number of words. -/
theorem count_le_length (words : List Word) (l : Char) :
    (Scoring.new words).count.get l ≤ words.length := by
  rw [scoring_count_get]
  exact List.length_filter_le _ _

/-- `half` is the integer half of the word count. -/
theorem scoring_half (words : List Word) :
    (Scoring.new words).half = (words.length : Int) / 2 := rfl

/-! ### `word_score` as a sum over the distinct letters of the word -/

theorem foldl_if_add_eq_sum (set : LetterSet) (f : Char → ℚ) (L : List Char) (init : ℚ) :
    L.foldl (fun total ch => if set.contains ch then total + f ch else total) init
      = init + ((L.filter (fun ch => set.contains ch)).map f).sum := by
  induction L generalizing init with
  | nil => simp
  | cons ch L ih =>
    rw [List.foldl_cons, ih]
    cases h : set.contains ch <;> simp [List.filter_cons, h, add_assoc]

/-- The accumulation loop of `word_score`, written as a sum over the
alphabet letters contained in the word's letter set. -/
theorem word_score_eq_fold (s : Scoring) (word : Word) (present : LetterSet) (early : Bool) :
    s.word_score word present early
      = ((lettersList.filter (fun ch => (LetterSet.from_word word).contains ch)).map
          (fun ch =>
            match early, present.contains ch with
            | true, true => 0
            | true, false => s.letter_score ch
            | false, true => s.letter_score ch * 2
            | false, false => s.letter_score ch)).sum := by
  exact (foldl_if_add_eq_sum (LetterSet.from_word word)
    (fun ch =>
      match early, present.contains ch with
      | true, true => 0
      | true, false => s.letter_score ch
      | false, true => s.letter_score ch * 2
      | false, false => s.letter_score ch) lettersList 0).trans (zero_add _)

/-! ### Claim C1 -/

unseal Rat.add Rat.mul Rat.inv in
/-- **C1** (counterexample).  The claimed range `[0,1]` fails for an odd
candidate count: over the three words `ab, ac, ad` (so `n = 3 ≥ 2`,
`half = 1`) the letter `a` occurs in all three words, giving
`letter_score(a) = (1 − |3 − 1|)/1 = −1 < 0`. -/
theorem letter_score_unit_interval_cex :
    2 ≤ ([['a', 'b'], ['a', 'c'], ['a', 'd']] : List Word).length ∧
    (Scoring.new [['a', 'b'], ['a', 'c'], ['a', 'd']]).letter_score 'a' < 0 := by
  decide

/-- **C1** (amended).  For a candidate list with `n ≥ 2` words,
`letter_score(ℓ) ≤ 1`, with equality exactly when `count[ℓ]` (the number
of words whose letter set contains `ℓ`) equals `⌊n/2⌋`; the lower bound
`0 ≤ letter_score(ℓ)` holds whenever `n` is even (for odd `n` a letter
occurring in all `n` words scores below 0, see the counterexample). -/
theorem letter_score_le_one_iff_half (words : List Word) (ch : Char)
    (hn : 2 ≤ words.length) :
    (Scoring.new words).letter_score ch ≤ 1
    ∧ ((Scoring.new words).letter_score ch = 1 ↔
        ((words.filter (fun w => (LetterSet.from_word w).contains ch)).length : Int)
          = (words.length : Int) / 2)
    ∧ (words.length % 2 = 0 → 0 ≤ (Scoring.new words).letter_score ch) := by
  have hls : (Scoring.new words).letter_score ch
      = ((Scoring.new words).abs_score ch : ℚ) / ((Scoring.new words).half : ℚ) := rfl
  have habs : (Scoring.new words).abs_score ch
      = (Scoring.new words).half
        - |((Scoring.new words).count.get ch : Int) - (Scoring.new words).half| := rfl
  have hh : (1 : Int) ≤ (Scoring.new words).half := by
    rw [scoring_half]
    omega
  have hq0 : (0 : ℚ) < ((Scoring.new words).half : ℚ) := by
    exact_mod_cast lt_of_lt_of_le Int.zero_lt_one hh
  have habs0 : (0 : Int) ≤ |((Scoring.new words).count.get ch : Int) - (Scoring.new words).half| :=
    abs_nonneg _
  refine ⟨?_, ?_, ?_⟩
  · rw [hls]
    rw [div_le_one hq0]
    exact_mod_cast (by omega :
      (Scoring.new words).abs_score ch ≤ (Scoring.new words).half)
  · rw [hls, div_eq_one_iff_eq (ne_of_gt hq0)]
    rw [Int.cast_inj, habs, sub_eq_self, abs_eq_zero, sub_eq_zero]
    rw [scoring_count_get, scoring_half]
  · intro hev
    have h2 : (words.length : Int) = 2 * ((words.length : Int) / 2) := by omega
    have hcount : ((Scoring.new words).count.get ch : Int) ≤ (words.length : Int) := by
      exact_mod_cast count_le_length words ch
    have hc0 : (0 : Int) ≤ ((Scoring.new words).count.get ch : Int) := Int.ofNat_nonneg _
    have hhn : (Scoring.new words).half = (words.length : Int) / 2 := scoring_half words
    have hle : |((Scoring.new words).count.get ch : Int) - (Scoring.new words).half|
        ≤ (Scoring.new words).half := by
      rw [abs_le]
      constructor
      · omega
      · omega
    rw [hls]
    apply div_nonneg _ (le_of_lt hq0)
    exact_mod_cast (by omega : (0 : Int) ≤ (Scoring.new words).abs_score ch)

/-- **C1** (witness for the amended theorem) at the two-word list
`ab, cd`. -/
theorem letter_score_le_one_iff_half_witness :
    (Scoring.new [['a', 'b'], ['c', 'd']]).letter_score 'a' ≤ 1
    ∧ ((Scoring.new [['a', 'b'], ['c', 'd']]).letter_score 'a' = 1 ↔
        ((([['a', 'b'], ['c', 'd']] : List Word).filter
            (fun w => (LetterSet.from_word w).contains 'a')).length : Int)
          = (([['a', 'b'], ['c', 'd']] : List Word).length : Int) / 2)
    ∧ (([['a', 'b'], ['c', 'd']] : List Word).length % 2 = 0 →
        0 ≤ (Scoring.new [['a', 'b'], ['c', 'd']]).letter_score 'a') :=
  letter_score_le_one_iff_half [['a', 'b'], ['c', 'd']] 'a' (by decide)

/-! ### Claim C3 -/

/-- **C3**: `word_score(w, P, early)` is the sum, over the distinct
alphabet letters occurring in `w` (the duplicate-free filtered alphabet
list), of 0 for a present letter in early mode, twice the letter score
for a present letter in late mode, and the letter score otherwise; and
the score depends on `w` only through its letter set, so repeated letters
contribute once. -/
theorem word_score_sum_spec (s : Scoring) (word : Word) (present : LetterSet) (early : Bool) :
    (s.word_score word present early =
      ((lettersList.filter (fun ch => (LetterSet.from_word word).contains ch)).map
        (fun ch =>
          if early = true then
            (if present.contains ch = true then 0 else s.letter_score ch)
          else
            (if present.contains ch = true then 2 * s.letter_score ch
             else s.letter_score ch))).sum)
    ∧ (lettersList.filter (fun ch => (LetterSet.from_word word).contains ch)).Nodup
    ∧ (∀ other : Word, LetterSet.from_word other = LetterSet.from_word word →
        s.word_score other present early = s.word_score word present early) := by
  refine ⟨?_, ?_, ?_⟩
  · rw [word_score_eq_fold]
    have hfg : (fun ch =>
          match early, present.contains ch with
          | true, true => (0 : ℚ)
          | true, false => s.letter_score ch
          | false, true => s.letter_score ch * 2
          | false, false => s.letter_score ch)
        = (fun ch =>
          if early = true then
            (if present.contains ch = true then 0 else s.letter_score ch)
          else
            (if present.contains ch = true then 2 * s.letter_score ch
             else s.letter_score ch)) := by
      funext ch
      cases early <;> cases h : present.contains ch <;> simp [h, mul_comm]
    rw [hfg]
  · exact lettersList_nodup.filter _
  · intro other hw
    simp only [Scoring.word_score, hw]

/-! ### Claim C10 -/

/-- **C10**: with the empty present-letter set the early and late scores
agree — every letter falls into the `(·, false)` rows of the adjustment
table, which both contribute the plain letter score. -/
theorem word_score_empty_present (s : Scoring) (word : Word) :
    s.word_score word LetterSet.default true = s.word_score word LetterSet.default false := by
  rw [word_score_eq_fold, word_score_eq_fold]
  have hfg : (fun ch =>
        match true, LetterSet.default.contains ch with
        | true, true => (0 : ℚ)
        | true, false => s.letter_score ch
        | false, true => s.letter_score ch * 2
        | false, false => s.letter_score ch)
      = (fun ch =>
        match false, LetterSet.default.contains ch with
        | true, true => (0 : ℚ)
        | true, false => s.letter_score ch
        | false, true => s.letter_score ch * 2
        | false, false => s.letter_score ch) := by
    funext ch
    rw [LetterSet.contains_default]
  rw [hfg]

/-! ### Claim C9 -/

/-- **C9**: the candidate filter is idempotent — filtering an
already-filtered list with the same constraints changes nothing, because
`Filter` is `List.filter` with a per-word predicate. -/
theorem filter_words_idempotent (words : List Word) (c : Constraints) :
    filter_words (filter_words words c) c = filter_words words c := by
  unfold filter_words
  rw [List.filter_filter]
  simp [Bool.and_self]

/-! ### Claim C6 -/

/-- **C6** (code bug).  From empty constraints (`L = 2`), picking `aa`
with feedback `?x` puts `a` into `present_everywhere` (orange at
position 0) and then into `forbidden_everywhere` (grey at position 1,
since `a` was never green so it is not in `fixed_anywhere`), so the two
sets are not disjoint after a single fully-processed feedback string. -/
theorem grey_after_orange_disjointness_failure :
    (apply_response (Constraints.init 2) ['a', 'a'] ['?', 'x']).forbidden_everywhere.contains 'a'
      = true
    ∧ (apply_response (Constraints.init 2) ['a', 'a'] ['?', 'x']).present_everywhere.contains 'a'
      = true := by
  decide

/-! ### Claim C8 -/

/-- **C8** (counterexample).  After picking `crane` with feedback `ooxxx`
the constraint state is not as claimed: `present_everywhere` is `{c, r}`
rather than empty (greens also mark letters present), and the filter does
not keep `crate` — `crate` contains the globally forbidden letters `a`
and `e`, so no dictionary word survives. -/
theorem green_scenario_cex :
    (apply_response (Constraints.init 5) "crane".toList "ooxxx".toList).present_everywhere
      ≠ LetterSet.default
    ∧ filter_words
        ["crane".toList, "crate".toList, "slate".toList, "plate".toList, "stair".toList,
          "atone".toList]
        (apply_response (Constraints.init 5) "crane".toList "ooxxx".toList)
      ≠ ["crate".toList] := by
  decide

/-- **C8** (amended).  After picking `crane` with feedback `ooxxx` from
empty constraints: `fixed = [c, r, _, _, _]`, `fixed_anywhere = {c, r}`,
`forbidden_everywhere = {a, n, e}`, all positional forbidden sets empty,
`present_everywhere = {c, r}`, and the subsequent filter keeps no word of
the dictionary (in particular not `crate`, which contains the forbidden
letters `a` and `e`). -/
theorem green_scenario_amended :
    (apply_response (Constraints.init 5) "crane".toList "ooxxx".toList).fixed_letters
      = [some 'c', some 'r', none, none, none]
    ∧ (apply_response (Constraints.init 5) "crane".toList "ooxxx".toList).fixed_anywhere
      = (LetterSet.default.insert 'c').insert 'r'
    ∧ (apply_response (Constraints.init 5) "crane".toList "ooxxx".toList).forbidden_everywhere
      = ((LetterSet.default.insert 'a').insert 'n').insert 'e'
    ∧ (apply_response (Constraints.init 5) "crane".toList "ooxxx".toList).forbidden_position
      = List.replicate 5 LetterSet.default
    ∧ (apply_response (Constraints.init 5) "crane".toList "ooxxx".toList).present_everywhere
      = (LetterSet.default.insert 'c').insert 'r'
    ∧ filter_words
        ["crane".toList, "crate".toList, "slate".toList, "plate".toList, "stair".toList,
          "atone".toList]
        (apply_response (Constraints.init 5) "crane".toList "ooxxx".toList)
      = [] := by
  decide

/-! ### Claim C4 -/

/-- The three per-position conditions of the specification's Filter: at
every position the letter is not globally forbidden, matches the fixed
letter when one is set, and is not positionally forbidden. -/
def word_ok_spec (c : Constraints) (w : Word) : Prop :=
  ∀ i : Nat, ∀ h : i < w.length,
    c.forbidden_everywhere.contains (w.get ⟨i, h⟩) = false
    ∧ (∀ m : Char, c.fixed_letters.getD i none = some m → w.get ⟨i, h⟩ = m)
    ∧ (c.forbidden_position.getD i LetterSet.default).contains (w.get ⟨i, h⟩) = false

theorem match_fixed_eq_true_iff (o : Option Char) (ch : Char) :
    ((match o with
      | some fixed => fixed == ch
      | none => true) = true) ↔ (∀ m : Char, o = some m → ch = m) := by
  cases o with
  | none => simp
  | some f =>
    show (f == ch) = true ↔ _
    rw [beq_iff_eq]
    constructor
    · intro h m hm
      injection hm with hm2
      rw [← h, hm2]
    · intro hall
      exact (hall f rfl).symm

theorem word_ok_aux_iff (c : Constraints) (w : List Char) (k : Nat) :
    word_ok_aux c k w = true ↔
      ∀ i : Nat, ∀ h : i < w.length,
        c.forbidden_everywhere.contains (w.get ⟨i, h⟩) = false
        ∧ (∀ m : Char, c.fixed_letters.getD (k + i) none = some m → w.get ⟨i, h⟩ = m)
        ∧ (c.forbidden_position.getD (k + i) LetterSet.default).contains (w.get ⟨i, h⟩)
            = false := by
  induction w generalizing k with
  | nil =>
    constructor
    · intro _ i h
      exact absurd h (Nat.not_lt_zero i)
    · intro _
      rfl
  | cons ch rest ih =>
    show (_ && _ && _ && word_ok_aux c (k + 1) rest) = true ↔ _
    simp only [Bool.and_eq_true, Bool.not_eq_true', match_fixed_eq_true_iff, ih (k + 1)]
    constructor
    · rintro ⟨⟨⟨hA, hB⟩, hC⟩, hrec⟩ i h
      cases i with
      | zero =>
        refine ⟨hA, ?_, ?_⟩
        · rw [Nat.add_zero]
          exact hB
        · rw [Nat.add_zero]
          exact hC
      | succ i =>
        have h' : i < rest.length := by
          simp only [List.length_cons] at h
          omega
        have := hrec i h'
        rw [show k + 1 + i = k + (i + 1) by omega] at this
        exact this
    · intro hall
      have h0 : 0 < (ch :: rest).length := by simp
      have hzero := hall 0 h0
      rw [Nat.add_zero] at hzero
      refine ⟨⟨⟨hzero.1, hzero.2.1⟩, hzero.2.2⟩, ?_⟩
      intro i h
      have h' : i + 1 < (ch :: rest).length := by
        simp only [List.length_cons]
        omega
      have := hall (i + 1) h'
      rw [show k + (i + 1) = k + 1 + i by omega] at this
      exact this

theorem word_ok_iff_spec (c : Constraints) (w : Word) :
    word_ok c w = true ↔ word_ok_spec c w := by
  rw [word_ok, word_ok_aux_iff]
  unfold word_ok_spec
  constructor
  · intro hall i h
    have := hall i h
    rw [Nat.zero_add] at this
    exact this
  · intro hall i h
    have := hall i h
    rw [Nat.zero_add]
    exact this

/-- The filter closure never reads `present_everywhere`. -/
theorem word_ok_aux_present (c : Constraints) (P : LetterSet) (k : Nat) (w : List Char) :
    word_ok_aux { c with present_everywhere := P } k w = word_ok_aux c k w := by
  induction w generalizing k with
  | nil => rfl
  | cons ch rest ih => simp only [word_ok_aux, ih]

/-- **C4**: over word lists whose words fit inside the constraint vectors
(the program's invariant — the Rust code indexes `fixed_letters[i]` and
`forbidden_position[i]` directly), the filter keeps exactly the words
satisfying the three per-position conditions, preserves relative order
(its result is a sublist of the input), and ignores `present_everywhere`,
so a word missing a known-present letter is still kept. -/
theorem filter_words_spec (words : List Word) (c : Constraints)
    (hlen : ∀ w ∈ words,
      w.length ≤ c.fixed_letters.length ∧ w.length ≤ c.forbidden_position.length) :
    (∀ w : Word, w ∈ filter_words words c ↔ (w ∈ words ∧ word_ok_spec c w))
    ∧ (filter_words words c).Sublist words
    ∧ (∀ P : LetterSet,
        filter_words words { c with present_everywhere := P } = filter_words words c) := by
  refine ⟨?_, List.filter_sublist words, ?_⟩
  · intro w
    rw [filter_words, List.mem_filter, word_ok_iff_spec]
  · intro P
    unfold filter_words
    have hfg : word_ok { c with present_everywhere := P } = word_ok c := by
      funext w
      exact word_ok_aux_present c P 0 w
    rw [hfg]

/-- **C4** (witness) at a one-word list and the initial constraints. -/
theorem filter_words_spec_witness :
    (['a'] ∈ filter_words [['a']] (Constraints.init 1)
      ↔ (['a'] ∈ ([['a']] : List Word) ∧ word_ok_spec (Constraints.init 1) ['a']))
    ∧ (filter_words [['a']] (Constraints.init 1)).Sublist [['a']]
    ∧ filter_words [['a']]
        { Constraints.init 1 with present_everywhere := LetterSet.default.insert 'a' }
      = filter_words [['a']] (Constraints.init 1) :=
  ⟨(filter_words_spec [['a']] (Constraints.init 1) (by decide)).1 ['a'],
   (filter_words_spec [['a']] (Constraints.init 1) (by decide)).2.1,
   (filter_words_spec [['a']] (Constraints.init 1) (by decide)).2.2 (LetterSet.default.insert 'a')⟩

/-! ### Claim C5 -/

/-- Entry `j` of the grey-branch update: the picked letter is inserted at
exactly the positions whose fixed letter is set and differs from it. -/
theorem grey_update_getD (fixed : List (Option Char)) (fp : List LetterSet) (pick : Char)
    (hlen : fixed.length = fp.length) (j : Nat) :
    (grey_update fixed fp pick).getD j LetterSet.default
      = match fixed.getD j none with
        | some f =>
          if f ≠ pick then (fp.getD j LetterSet.default).insert pick
          else fp.getD j LetterSet.default
        | none => fp.getD j LetterSet.default := by
  induction fixed generalizing fp j with
  | nil =>
    cases fp with
    | nil => rfl
    | cons s fp => simp at hlen
  | cons o fixed ih =>
    cases fp with
    | nil => simp at hlen
    | cons s fp =>
      have hlen2 : fixed.length = fp.length := by
        simp at hlen
        exact hlen
      cases j with
      | zero =>
        cases o <;> rfl
      | succ j =>
        unfold grey_update
        rw [List.zipWith_cons_cons, List.getD_cons_succ, List.getD_cons_succ,
          List.getD_cons_succ]
        exact ih fp hlen2 j

/-- **C5**: the grey (`'x'`) transition.  If the picked letter is in
`fixed_anywhere` at that moment, the picked letter is inserted into
`forbidden_position[j]` for exactly the positions `j` whose fixed letter
is set to a different letter, and `forbidden_everywhere` is untouched;
otherwise the picked letter is added to `forbidden_everywhere` and the
positional sets are untouched.  The remaining constraint fields never
change.  (`pick` is an alphabet letter — picked words are validated to be
lowercase — and the two positional vectors have the configured length.) -/
theorem grey_feedback_spec (c : Constraints) (i : Nat) (pick : Char)
    (hp : to_letter_index pick ≠ none)
    (hlen : c.fixed_letters.length = c.forbidden_position.length) :
    (parse_step c i pick 'x').present_everywhere = c.present_everywhere
    ∧ (parse_step c i pick 'x').fixed_letters = c.fixed_letters
    ∧ (parse_step c i pick 'x').fixed_anywhere = c.fixed_anywhere
    ∧ (c.fixed_anywhere.contains pick = true →
        (parse_step c i pick 'x').forbidden_everywhere = c.forbidden_everywhere
        ∧ ∀ j : Nat, ∀ letter : Char,
            (((parse_step c i pick 'x').forbidden_position.getD j LetterSet.default).contains
                letter = true
              ↔ ((c.forbidden_position.getD j LetterSet.default).contains letter = true
                 ∨ (letter = pick
                    ∧ ∃ m : Char, c.fixed_letters.getD j none = some m ∧ m ≠ pick))))
    ∧ (c.fixed_anywhere.contains pick = false →
        (parse_step c i pick 'x').forbidden_position = c.forbidden_position
        ∧ ∀ letter : Char,
            ((parse_step c i pick 'x').forbidden_everywhere.contains letter = true
              ↔ (c.forbidden_everywhere.contains letter = true ∨ letter = pick))) := by
  have hx : parse_step c i pick 'x'
      = if c.fixed_anywhere.contains pick then
          { c with forbidden_position := grey_update c.fixed_letters c.forbidden_position pick }
        else { c with forbidden_everywhere := c.forbidden_everywhere.insert pick } := rfl
  cases hfa : c.fixed_anywhere.contains pick with
  | true =>
    rw [hfa] at hx
    rw [if_pos rfl] at hx
    refine ⟨by rw [hx], by rw [hx], by rw [hx], ?_, ?_⟩
    · intro _
      refine ⟨by rw [hx], ?_⟩
      intro j letter
      rw [hx]
      show ((grey_update c.fixed_letters c.forbidden_position pick).getD j
        LetterSet.default).contains letter = true ↔ _
      rw [grey_update_getD c.fixed_letters c.forbidden_position pick hlen j]
      cases hfix : c.fixed_letters.getD j none with
      | none =>
        simp
      | some f =>
        show ((if f ≠ pick then (c.forbidden_position.getD j LetterSet.default).insert pick
               else c.forbidden_position.getD j LetterSet.default).contains letter = true) ↔ _
        by_cases hfp : f = pick
        · subst hfp
          rw [if_neg (by simp)]
          constructor
          · intro h
            exact Or.inl h
          · rintro (h | ⟨rfl, m, hm, hne⟩)
            · exact h
            · injection hm with hm2
              exact absurd hm2.symm hne
        · rw [if_pos hfp]
          rw [LetterSet.contains_insert]
          constructor
          · rintro (h | ⟨rfl, -⟩)
            · exact Or.inl h
            · exact Or.inr ⟨rfl, f, rfl, hfp⟩
          · rintro (h | ⟨rfl, -⟩)
            · exact Or.inl h
            · exact Or.inr ⟨rfl, hp⟩
    · intro habs
      simp at habs
  | false =>
    rw [hfa] at hx
    rw [if_neg (by simp)] at hx
    refine ⟨by rw [hx], by rw [hx], by rw [hx], ?_, ?_⟩
    · intro habs
      simp at habs
    · intro _
      refine ⟨by rw [hx], ?_⟩
      intro letter
      rw [hx]
      show (c.forbidden_everywhere.insert pick).contains letter = true ↔ _
      rw [LetterSet.contains_insert]
      constructor
      · rintro (h | ⟨rfl, -⟩)
        · exact Or.inl h
        · exact Or.inr rfl
      · rintro (h | rfl)
        · exact Or.inl h
        · exact Or.inr ⟨rfl, hp⟩

/-- **C5** (witness).  Concrete instance: fixed letters `c, b` at
positions 0 and 1 (from greens on a previous pick), then a grey on `b`:
position 0 has a different fixed letter, so `b` lands in
`forbidden_position[0]`. -/
theorem grey_feedback_spec_witness :
    (((parse_step (apply_response (Constraints.init 2) ['c', 'b'] ['o', 'o']) 0 'b'
          'x').forbidden_position.getD 0 LetterSet.default).contains 'b' = true
      ↔ ((((apply_response (Constraints.init 2) ['c', 'b']
              ['o', 'o']).forbidden_position.getD 0 LetterSet.default).contains 'b' = true)
         ∨ ('b' = 'b'
            ∧ ∃ m : Char,
                (apply_response (Constraints.init 2) ['c', 'b'] ['o', 'o']).fixed_letters.getD 0
                    none = some m
                ∧ m ≠ 'b'))) :=
  ((grey_feedback_spec (apply_response (Constraints.init 2) ['c', 'b'] ['o', 'o']) 0 'b'
      (by decide) (by decide)).2.2.2.1 (by decide)).2 0 'b'

/-! ### Claim C7 -/

/-- When the divisor is non-zero the f32 division model returns the exact
rational quotient, so `letter_score_f32` and `letter_score` agree. -/
theorem letter_score_f32_of_half_ne_zero (s : Scoring) (ch : Char) (h : s.half ≠ 0) :
    s.letter_score_f32 ch = Scoring.F32Val.val (s.letter_score ch) := by
  unfold Scoring.letter_score_f32 Scoring.f32_div Scoring.letter_score
  rw [if_neg (by exact_mod_cast h)]

/-- **C7** (counterexample).  On the empty slice `half = 0` and
`count[a] = 0`, so the f32 code computes `0.0 / 0.0`, which is NaN, not
the claimed 0. -/
theorem letter_score_f32_zero_cex :
    ([] : List Word).length < 2
    ∧ (Scoring.new ([] : List Word)).letter_score_f32 'a' ≠ Scoring.F32Val.val 0 := by
  decide

/-- **C7** (amended).  On a slice of fewer than two words (`half = 0`)
`letter_score` never returns 0: the f32 division by zero yields NaN when
the letter occurs in no word (`0.0 / 0.0`) and −∞ when it occurs in the
single word (`−1.0 / 0.0`). -/
theorem letter_score_f32_half_zero (words : List Word) (ch : Char)
    (h : words.length < 2) :
    (Scoring.new words).letter_score_f32 ch = Scoring.F32Val.nan
    ∨ (Scoring.new words).letter_score_f32 ch = Scoring.F32Val.negInf := by
  have hhalf : (Scoring.new words).half = 0 := by
    rw [scoring_half]
    omega
  have hcount : (Scoring.new words).count.get ch ≤ 1 := by
    have := count_le_length words ch
    omega
  have hf : (Scoring.new words).letter_score_f32 ch
      = Scoring.f32_div ((Scoring.new words).abs_score ch : ℚ)
          ((Scoring.new words).half : ℚ) := rfl
  have hc01 : (Scoring.new words).count.get ch = 0 ∨ (Scoring.new words).count.get ch = 1 := by
    omega
  rcases hc01 with hc | hc
  · left
    have habs : (Scoring.new words).abs_score ch = 0 := by
      simp only [Scoring.abs_score, hhalf, hc]
      simp
    rw [hf, hhalf, habs]
    simp [Scoring.f32_div]
  · right
    have habs : (Scoring.new words).abs_score ch = -1 := by
      simp only [Scoring.abs_score, hhalf, hc]
      simp
    rw [hf, hhalf, habs]
    norm_num [Scoring.f32_div]

/-- **C7** (witness for the amended theorem) at the one-word slice `ab`
and the letter `a` it contains: the score is −∞. -/
theorem letter_score_f32_half_zero_witness :
    ([['a', 'b']] : List Word).length < 2
    ∧ ((Scoring.new [['a', 'b']]).letter_score_f32 'a' = Scoring.F32Val.nan
       ∨ (Scoring.new [['a', 'b']]).letter_score_f32 'a' = Scoring.F32Val.negInf) :=
  ⟨by decide, letter_score_f32_half_zero [['a', 'b']] 'a' (by decide)⟩

/-! ### Claim C2 -/

/-- The reversed comparator of the guess loop, seen as a boolean "is not
Greater" relation, is exactly "right score ≤ left score". -/
theorem word_cmp_le (score : Scoring) (present : LetterSet) (early : Bool) (l r : Word) :
    (word_cmp score present early l r != Ordering.gt)
      = decide (score.word_score r present early ≤ score.word_score l present early) := by
  simp only [word_cmp]
  rcases lt_trichotomy (score.word_score l present early) (score.word_score r present early)
    with h | h | h
  · rw [if_pos h]
    show false = _
    rw [eq_comm, decide_eq_false_iff_not]
    exact not_le.mpr h
  · rw [if_neg (by rw [h]; exact lt_irrefl _), if_neg (by rw [h]; exact lt_irrefl _)]
    show true = _
    rw [eq_comm, decide_eq_true_eq]
    exact le_of_eq h.symm
  · rw [if_neg (lt_asymm h), if_pos h]
    show true = _
    rw [eq_comm, decide_eq_true_eq]
    exact le_of_lt h

theorem key_le_trans (key : Word → ℚ) : ∀ a b c : Word,
    decide (key b ≤ key a) = true → decide (key c ≤ key b) = true →
    decide (key c ≤ key a) = true := by
  intro a b c hab hbc
  rw [decide_eq_true_eq] at hab hbc ⊢
  exact le_trans hbc hab

theorem key_le_total (key : Word → ℚ) : ∀ a b : Word,
    (decide (key b ≤ key a) || decide (key a ≤ key b)) = true := by
  intro a b
  rcases le_total (key b) (key a) with h | h <;> simp [h]

/-- Stability of the model sort: filtering the sorted list at any key
value returns those entries in their original order. -/
theorem mergeSort_filter_key (key : Word → ℚ) (words : List Word) (q : ℚ) :
    (words.mergeSort (fun l r => decide (key r ≤ key l))).filter
        (fun w => decide (key w = q))
      = words.filter (fun w => decide (key w = q)) := by
  have hmem : ∀ w ∈ words.filter (fun w => decide (key w = q)), key w = q := by
    intro w hw
    have := List.of_mem_filter hw
    rwa [decide_eq_true_eq] at this
  have hpw : (words.filter (fun w => decide (key w = q))).Pairwise
      (fun a b => decide (key b ≤ key a) = true) := by
    apply List.pairwise_of_forall_mem_list
    intro a ha b hb
    rw [decide_eq_true_eq, hmem a ha, hmem b hb]
  have hstable := List.sublist_mergeSort (key_le_trans key) (key_le_total key) hpw
    (List.filter_sublist words)
  have hfs := hstable.filter (fun w => decide (key w = q))
  rw [List.filter_filter] at hfs
  simp only [Bool.and_self] at hfs
  have hperm := (List.mergeSort_perm words (fun l r => decide (key r ≤ key l))).filter
    (fun w => decide (key w = q))
  exact (hfs.eq_of_length hperm.length_eq.symm).symm

/-- A merge sort of a two-element list compares the two elements once. -/
theorem mergeSort_pair (le : Word → Word → Bool) (a b : Word) :
    [a, b].mergeSort le = if le a b then [a, b] else [b, a] := by
  rw [List.mergeSort]
  have hsplit : List.splitAt.go [a, b] ([a, b] : List Word) 1 [] = ([a], [b]) := by
    simp [List.splitAt.go]
  simp [List.splitInTwo, List.splitAt, hsplit]
  cases h : le a b <;> simp [List.merge, h]

unseal Rat.add Rat.mul Rat.inv in
/-- **C2** (counterexample).  The late list is NOT sorted by the
late-game key: the code passes `early = true` for both display lists.
With candidates `ab, cd`, `present = {a}` and `K = 1`, every letter
scores 1; the early keys are `ab ↦ 1, cd ↦ 2` (present `a` contributes
0) but the late keys are `ab ↦ 3, cd ↦ 2` (present `a` contributes 2), so
the code shows `cd` while the claimed construction shows `ab`. -/
theorem late_guesses_mode_cex :
    late_guesses [['a', 'b'], ['c', 'd']] (LetterSet.default.insert 'a') 1
      ≠ spec_late_list [['a', 'b'], ['c', 'd']] (LetterSet.default.insert 'a') 1 := by
  have h1 : late_guesses [['a', 'b'], ['c', 'd']] (LetterSet.default.insert 'a') 1
      = [['c', 'd']] := by
    simp only [late_guesses, sort_by_cmp]
    rw [mergeSort_pair]
    decide
  have h2 : spec_late_list [['a', 'b'], ['c', 'd']] (LetterSet.default.insert 'a') 1
      = [['a', 'b']] := by
    simp only [spec_late_list]
    rw [mergeSort_pair]
    decide
  rw [h1, h2]
  decide

/-- **C2** (amended).  In every round the displayed late list is obtained
by stably sorting the current candidates in descending order of the
EARLY-game score `word_score(w, present_everywhere, true)` — the code
passes `early = true` for both display lists — and taking the first `K`
entries.  The stable descending sort is characterised extensionally: a
permutation of the candidates, pairwise descending in the key, that
preserves the original relative order of entries with equal keys. -/
theorem late_guesses_stable_sort (words : List Word) (present : LetterSet) (guesses : Nat) :
    ∃ sorted : List Word,
      sorted.Perm words
      ∧ sorted.Pairwise (fun l r =>
          (Scoring.new words).word_score r present true
            ≤ (Scoring.new words).word_score l present true)
      ∧ (∀ q : ℚ,
          sorted.filter
              (fun w => decide ((Scoring.new words).word_score w present true = q))
            = words.filter
                (fun w => decide ((Scoring.new words).word_score w present true = q)))
      ∧ late_guesses words present guesses = sorted.take guesses := by
  have hle : (fun l r : Word => word_cmp (Scoring.new words) present true l r != Ordering.gt)
      = (fun l r : Word =>
          decide ((Scoring.new words).word_score r present true
            ≤ (Scoring.new words).word_score l present true)) := by
    funext l r
    exact word_cmp_le (Scoring.new words) present true l r
  refine ⟨sort_by_cmp words (word_cmp (Scoring.new words) present true), ?_, ?_, ?_, ?_⟩
  · exact List.mergeSort_perm words _
  · unfold sort_by_cmp
    rw [hle]
    have hsorted := List.sorted_mergeSort
      (key_le_trans (fun w => (Scoring.new words).word_score w present true))
      (key_le_total (fun w => (Scoring.new words).word_score w present true)) words
    exact hsorted.imp (fun h => of_decide_eq_true h)
  · intro q
    unfold sort_by_cmp
    rw [hle]
    exact mergeSort_filter_key (fun w => (Scoring.new words).word_score w present true) words q
  · show (if (sort_by_cmp words (word_cmp (Scoring.new words) present true)).length < guesses
        then sort_by_cmp words (word_cmp (Scoring.new words) present true)
        else (sort_by_cmp words (word_cmp (Scoring.new words) present true)).take guesses)
      = _
    by_cases hlen :
        (sort_by_cmp words (word_cmp (Scoring.new words) present true)).length < guesses
    · rw [if_pos hlen, List.take_of_length_le (le_of_lt hlen)]
    · rw [if_neg hlen]

end Wordule
